import Mathlib

/-!
# Verification of `src/python/creational/object_pool.py`

Shallow embedding of the Object Pool sample (`ModelPool`, `SampleModel`)
and proofs of the specified properties.

Modelling conventions:

* A Python `dict[int, Model]` (insertion-ordered, unique keys, CPython ≥ 3.7
  semantics) is embedded as a `List (Nat × M)` of key/value entries in
  insertion order.  `d[k] = v` is `dictInsert` (updates in place when the key
  is present, appends otherwise), `del d[k]` is `dictDelete`, and
  `d.popitem()` removes and returns the *last* entry (`getLast?`/`dropLast`).
* `id(model)` — CPython object identity — is the `Nat` key attached to each
  model value.  Distinct objects have distinct keys even when their internal
  state is equal.
* A failed `assert` / `popitem` on an empty dict raises; every pool operation
  therefore returns an `Except PoolError` result *paired with the post-state
  of the pool* (the state as left behind when the exception propagates).
* `model.reset()` is passed in as a function `M → Option M`; `none` models a
  `reset` call that raises.  The only concrete resource in the repository,
  `SampleModel`, has an infallible no-op `reset`, so executions of the actual
  program correspond to total reset functions (`fun m => some (resetFn m)`).
-/

/-- Keys (`id(...)` values) of the entries of an embedded Python dict. -/
def keysOf {M : Type} (l : List (Nat × M)) : List Nat :=
  l.map Prod.fst

/-- `d[k] = v` on a Python dict: update in place if `k` is present
(keeping its position), append a new entry otherwise. -/
def dictInsert {M : Type} (l : List (Nat × M)) (k : Nat) (v : M) : List (Nat × M) :=
  if k ∈ keysOf l then l.map (fun e => if e.1 = k then (k, v) else e)
  else l ++ [(k, v)]

/-- `del d[k]` on a Python dict: remove the entry with key `k`
(a dict holds at most one). -/
def dictDelete {M : Type} (l : List (Nat × M)) (k : Nat) : List (Nat × M) :=
  l.filter (fun e => e.1 ≠ k)

/-- The error conditions of the pool operations: the `assert` in `add`
(DuplicateResource), the `KeyError` of `popitem()` on an empty `free` dict
(PoolExhausted), the `assert` in `release` (NotInUse), and an exception
propagating out of `model.reset()` (ResourceResetFailed). -/
inductive PoolError where
  | duplicateResource
  | poolExhausted
  | notInUse
  | resetFailed
deriving DecidableEq, Repr

/-- `ModelPool.__init__`: `self._objects = dict(free=dict(), in_use=dict())`.
Each inner dict maps `id(model)` to the model. -/
structure ModelPool (M : Type) where
  free : List (Nat × M)
  in_use : List (Nat × M)
deriving DecidableEq, Repr

namespace ModelPool

/-- A freshly constructed pool: both dicts empty. -/
def empty {M : Type} : ModelPool M := ⟨[], []⟩

/-- `ModelPool.add`: `assert` the key is in neither dict, then
`self._objects["free"][key] = model`.  On assertion failure the pool is
unchanged. -/
def add {M : Type} (p : ModelPool M) (key : Nat) (model : M) :
    Except PoolError Unit × ModelPool M :=
  if key ∈ keysOf p.free ∨ key ∈ keysOf p.in_use then
    (.error .duplicateResource, p)
  else
    (.ok (), { p with free := dictInsert p.free key model })

/-- `ModelPool.get`: `key, model = self._objects["free"].popitem()` (removes
the last-inserted entry; raises `KeyError` on an empty dict), then
`self._objects["in_use"][key] = model; return model`. -/
def get {M : Type} (p : ModelPool M) :
    Except PoolError (Nat × M) × ModelPool M :=
  match p.free.getLast? with
  | none => (.error .poolExhausted, p)
  | some (key, model) =>
      (.ok (key, model),
        { free := p.free.dropLast, in_use := dictInsert p.in_use key model })

/-- `ModelPool.release`: `assert key in in_use`, then `del in_use[key]`,
then `model.reset()`, then `free[key] = model`.  The deletion from `in_use`
happens *before* `reset()` is invoked, so when `reset` raises (modelled by
`resetFn model = none`) the exception propagates with the model already
removed from `in_use` and not yet inserted into `free`. -/
def release {M : Type} (p : ModelPool M) (key : Nat) (model : M)
    (resetFn : M → Option M) : Except PoolError Unit × ModelPool M :=
  if key ∈ keysOf p.in_use then
    let p1 : ModelPool M := { p with in_use := dictDelete p.in_use key }
    match resetFn model with
    | some m => (.ok (), { p1 with free := dictInsert p1.free key m })
    | none => (.error .resetFailed, p1)
  else
    (.error .notInUse, p)

/-- `ModelPool.free_count`: `len(self._objects["free"])`. -/
def free_count {M : Type} (p : ModelPool M) : Nat :=
  p.free.length

/-- `ModelPool.in_use_count`: `len(self._objects["in_use"])`. -/
def in_use_count {M : Type} (p : ModelPool M) : Nat :=
  p.in_use.length

end ModelPool

/-- A client-visible call on the pool: `add(model)` / `get()` /
`release(model)`.  `add` and `release` carry the identity key and value of
the model object the client passes. -/
inductive PoolOp (M : Type) where
  | add (key : Nat) (model : M)
  | get
  | release (key : Nat) (model : M)
deriving DecidableEq, Repr

namespace ModelPool

/-- The pool state after one client call (the result value is discarded;
`resetFn` is the — infallible, as for `SampleModel` — reset of the
resource class in use). -/
def step {M : Type} (resetFn : M → M) (p : ModelPool M) (op : PoolOp M) :
    ModelPool M :=
  match op with
  | .add k m => (p.add k m).2
  | .get => p.get.2
  | .release k m => (p.release k m (fun x => some (resetFn x))).2

/-- The pool state reached from a fresh pool by a sequence of calls. -/
def run {M : Type} (resetFn : M → M) (ops : List (PoolOp M)) : ModelPool M :=
  ops.foldl (step resetFn) ModelPool.empty

/-- The key added by one call at pool state `p`: `[k]` when the call is a
succeeding `add` of key `k`, `[]` otherwise. -/
def addContribution {M : Type} (p : ModelPool M) (op : PoolOp M) : List Nat :=
  match op with
  | .add k _ => if k ∈ keysOf p.free ∨ k ∈ keysOf p.in_use then [] else [k]
  | _ => []

/-- Keys of the resources successfully added during a call sequence starting
at `p`, in order of addition. -/
def addedKeys {M : Type} (resetFn : M → M) :
    ModelPool M → List (PoolOp M) → List Nat
  | _, [] => []
  | p, op :: ops =>
      addContribution p op ++ addedKeys resetFn (step resetFn p op) ops

/-- Well-formedness of a pool state: key sets of the two dicts are duplicate
free (true of any Python dict) and disjoint. -/
def Inv {M : Type} (p : ModelPool M) : Prop :=
  (keysOf p.free).Nodup ∧ (keysOf p.in_use).Nodup ∧
    ∀ k, k ∈ keysOf p.free → k ∉ keysOf p.in_use

end ModelPool

/-- Where a given identity key stands with respect to a pool: not tracked,
in the `free` dict, or in the `in_use` dict. -/
inductive Status where
  | untracked
  | free
  | inUse
deriving DecidableEq, Repr

/-- The status of key `k` in pool `p`. -/
def ModelPool.statusOf {M : Type} (p : ModelPool M) (k : Nat) : Status :=
  if k ∈ keysOf p.in_use then .inUse
  else if k ∈ keysOf p.free then .free
  else .untracked

/-- The transitions the spec allows for one key under one call: either the
key's status is unchanged, or the call is `add` of that key moving it
untracked → free, or `get` moving it free → in_use, or `release` of that key
moving it in_use → free. -/
def allowedTransition {M : Type} (op : PoolOp M) (k : Nat) (s s' : Status) :
    Prop :=
  s' = s ∨
    ((∃ m, op = .add k m) ∧ s = .untracked ∧ s' = .free) ∨
    (op = .get ∧ s = .free ∧ s' = .inUse) ∨
    ((∃ m, op = .release k m) ∧ s = .inUse ∧ s' = .free)

/-- `SampleModel`: its whole internal state is the `_shift` vector fixed in
`__init__` (`[random.randint(-10, 10) for _ in range(10)]`). -/
structure SampleModel where
  shift : List Int
deriving DecidableEq, Repr

namespace SampleModel

/-- What `SampleModel.__init__` guarantees about the `_shift` vector:
10 entries, each drawn from `randint(-10, 10)`. -/
def wellFormed (m : SampleModel) : Prop :=
  m.shift.length = 10 ∧ ∀ s ∈ m.shift, -10 ≤ s ∧ s ≤ 10

/-- `SampleModel.predict`:
`[x_ + self._shift[i % len(self._shift)] for i, x_ in enumerate(x)]`.
The index `i % len(shift)` is in range whenever `shift` is nonempty (the
constructor makes it length 10), so the `getD` default is never consulted for
constructor-produced models. -/
def predict (m : SampleModel) (x : List Int) : List Int :=
  x.enum.map (fun ix => ix.2 + m.shift.getD (ix.1 % m.shift.length) 0)

/-- A `model.predict(x)` method call as (returned value, state of `self`
afterwards): the body is a pure list comprehension with no assignment to
`self`, so the post-state is the pre-state. -/
def predictCall (m : SampleModel) (x : List Int) : List Int × SampleModel :=
  (m.predict x, m)

/-- `SampleModel.reset`: a no-op (`pass`) — the model is stateless beyond
the construction-time `_shift`. -/
def reset (m : SampleModel) : SampleModel := m

end SampleModel

/-! ## Dictionary lemmas -/

theorem keysOf_append {M : Type} (l l' : List (Nat × M)) :
    keysOf (l ++ l') = keysOf l ++ keysOf l' :=
  List.map_append _ _ _

theorem keysOf_length {M : Type} (l : List (Nat × M)) :
    (keysOf l).length = l.length :=
  List.length_map _ _

theorem mem_keysOf {M : Type} {l : List (Nat × M)} {e : Nat × M}
    (h : e ∈ l) : e.1 ∈ keysOf l :=
  List.mem_map_of_mem Prod.fst h

theorem dictInsert_of_not_mem {M : Type} {l : List (Nat × M)} {k : Nat}
    (v : M) (h : k ∉ keysOf l) : dictInsert l k v = l ++ [(k, v)] := by
  simp [dictInsert, h]

theorem keysOf_dictInsert_of_not_mem {M : Type} {l : List (Nat × M)} {k : Nat}
    (v : M) (h : k ∉ keysOf l) :
    keysOf (dictInsert l k v) = keysOf l ++ [k] := by
  rw [dictInsert_of_not_mem v h, keysOf_append]
  rfl

theorem keysOf_dictInsert_of_mem {M : Type} {l : List (Nat × M)} {k : Nat}
    (v : M) (h : k ∈ keysOf l) :
    keysOf (dictInsert l k v) = keysOf l := by
  unfold dictInsert
  rw [if_pos h]
  unfold keysOf
  rw [List.map_map]
  apply List.map_congr_left
  intro e _
  by_cases hek : e.1 = k <;> simp [hek]

theorem mem_keysOf_dictInsert {M : Type} (l : List (Nat × M)) (k k' : Nat)
    (v : M) : k' ∈ keysOf (dictInsert l k v) ↔ k' ∈ keysOf l ∨ k' = k := by
  by_cases h : k ∈ keysOf l
  · rw [keysOf_dictInsert_of_mem v h]
    constructor
    · exact Or.inl
    · rintro (h' | rfl)
      · exact h'
      · exact h
  · rw [keysOf_dictInsert_of_not_mem v h]
    simp

theorem length_dictInsert_of_not_mem {M : Type} {l : List (Nat × M)} {k : Nat}
    (v : M) (h : k ∉ keysOf l) :
    (dictInsert l k v).length = l.length + 1 := by
  rw [dictInsert_of_not_mem v h, List.length_append]
  rfl

theorem keysOf_dictDelete {M : Type} (l : List (Nat × M)) (k : Nat) :
    keysOf (dictDelete l k) = (keysOf l).filter (fun x => x ≠ k) := by
  induction l with
  | nil => rfl
  | cons e t ih =>
      by_cases h : e.1 = k <;>
        simp [dictDelete, keysOf, List.filter_cons, h] at * <;>
        simpa [dictDelete, keysOf] using ih

theorem mem_keysOf_dictDelete {M : Type} (l : List (Nat × M)) (k k' : Nat) :
    k' ∈ keysOf (dictDelete l k) ↔ k' ∈ keysOf l ∧ k' ≠ k := by
  rw [keysOf_dictDelete]
  simp

theorem nodup_keysOf_dictDelete {M : Type} {l : List (Nat × M)} (k : Nat)
    (h : (keysOf l).Nodup) : (keysOf (dictDelete l k)).Nodup := by
  rw [keysOf_dictDelete]
  exact h.filter _

theorem dictDelete_of_not_mem {M : Type} {l : List (Nat × M)} {k : Nat}
    (h : k ∉ keysOf l) : dictDelete l k = l := by
  induction l with
  | nil => rfl
  | cons e t ih =>
      have h1 : e.1 ≠ k := fun hek => h (hek ▸ mem_keysOf (List.mem_cons_self e t))
      have h2 : k ∉ keysOf t := fun hkt => h (List.mem_cons_of_mem _ hkt)
      simp [dictDelete, List.filter_cons, h1] at *
      exact ih h2

theorem keysOf_cons {M : Type} (e : Nat × M) (t : List (Nat × M)) :
    keysOf (e :: t) = e.1 :: keysOf t :=
  rfl

theorem length_dictDelete_of_mem {M : Type} {l : List (Nat × M)} {k : Nat}
    (hnd : (keysOf l).Nodup) (h : k ∈ keysOf l) :
    (dictDelete l k).length + 1 = l.length := by
  induction l with
  | nil => cases h
  | cons e t ih =>
      rw [keysOf_cons] at hnd h
      obtain ⟨hedup, hnd'⟩ := List.nodup_cons.mp hnd
      by_cases hek : e.1 = k
      · have hkt : k ∉ keysOf t := hek ▸ hedup
        have ht : dictDelete t k = t := dictDelete_of_not_mem hkt
        simp only [dictDelete, List.filter_cons] at ht ⊢
        rw [if_neg (by simp [hek]), ht, List.length_cons]
      · have hkt : k ∈ keysOf t := by
          rcases List.mem_cons.mp h with h' | h'
          · exact absurd h'.symm hek
          · exact h'
        have hlen := ih hnd' hkt
        simp only [dictDelete, List.filter_cons] at hlen ⊢
        rw [if_pos (by simpa using hek)]
        simp only [List.length_cons]
        omega

/-! ## Pool operation lemmas -/

theorem get_ok_elim {M : Type} {p p' : ModelPool M} {k : Nat} {m : M}
    (h : p.get = (.ok (k, m), p')) :
    p.free.getLast? = some (k, m) ∧
      p' = ⟨p.free.dropLast, dictInsert p.in_use k m⟩ := by
  unfold ModelPool.get at h
  cases hl : p.free.getLast? with
  | none => rw [hl] at h; simp at h
  | some e =>
      obtain ⟨k0, m0⟩ := e
      rw [hl] at h
      simp only [Prod.mk.injEq, Except.ok.injEq] at h
      obtain ⟨⟨rfl, rfl⟩, rfl⟩ := h
      exact ⟨rfl, rfl⟩

theorem free_decomp_of_getLast {M : Type} {p : ModelPool M} {k : Nat} {m : M}
    (hl : p.free.getLast? = some (k, m)) :
    p.free.dropLast ++ [(k, m)] = p.free :=
  List.dropLast_append_getLast? _ (Option.mem_def.mpr hl)

theorem keysOf_free_decomp {M : Type} {p : ModelPool M} {k : Nat} {m : M}
    (hl : p.free.getLast? = some (k, m)) :
    keysOf p.free = keysOf p.free.dropLast ++ [k] := by
  conv_lhs => rw [← free_decomp_of_getLast hl]
  rw [keysOf_append]
  rfl

theorem inv_add {M : Type} (p : ModelPool M) (k : Nat) (m : M)
    (hInv : p.Inv) : (p.add k m).2.Inv := by
  obtain ⟨h1, h2, h3⟩ := hInv
  unfold ModelPool.add
  by_cases h : k ∈ keysOf p.free ∨ k ∈ keysOf p.in_use
  · rw [if_pos h]
    exact ⟨h1, h2, h3⟩
  · push_neg at h
    obtain ⟨hf, hu⟩ := h
    rw [if_neg (by push_neg; exact ⟨hf, hu⟩)]
    refine ⟨?_, h2, ?_⟩
    · rw [keysOf_dictInsert_of_not_mem m hf]
      simp only [List.nodup_append, List.nodup_cons, List.not_mem_nil,
        not_false_eq_true, List.nodup_nil, and_true, true_and]
      refine ⟨h1, ?_⟩
      intro x hx
      simp only [List.mem_singleton]
      intro hxk
      exact hf (hxk ▸ hx)
    · intro x hx
      rw [keysOf_dictInsert_of_not_mem m hf] at hx
      rcases List.mem_append.mp hx with hx | hx
      · exact h3 x hx
      · rw [List.mem_singleton] at hx
        subst hx
        exact hu

theorem inv_get {M : Type} (p : ModelPool M) (hInv : p.Inv) : p.get.2.Inv := by
  obtain ⟨h1, h2, h3⟩ := hInv
  unfold ModelPool.get
  cases hl : p.free.getLast? with
  | none => exact ⟨h1, h2, h3⟩
  | some e =>
      obtain ⟨k, m⟩ := e
      have hkeys := keysOf_free_decomp hl
      rw [hkeys] at h1
      rw [List.nodup_append] at h1
      obtain ⟨hA, _, hdisj⟩ := h1
      have hkfree : k ∈ keysOf p.free := by
        rw [hkeys]
        exact List.mem_append.mpr (Or.inr (List.mem_singleton.mpr rfl))
      have hku : k ∉ keysOf p.in_use := h3 k hkfree
      refine ⟨hA, ?_, ?_⟩
      · rw [keysOf_dictInsert_of_not_mem m hku]
        simp only [List.nodup_append, List.nodup_cons, List.not_mem_nil,
          not_false_eq_true, List.nodup_nil, and_true, true_and]
        refine ⟨h2, ?_⟩
        intro x hx
        simp only [List.mem_singleton]
        intro hxk
        exact (hxk ▸ hx : k ∈ keysOf p.in_use) |> hku
      · intro x hx
        have hxfree : x ∈ keysOf p.free := by
          rw [hkeys]
          exact List.mem_append.mpr (Or.inl hx)
        have hxu : x ∉ keysOf p.in_use := h3 x hxfree
        have hxk : x ≠ k := fun hxe => hdisj hx (List.mem_singleton.mpr hxe)
        rw [keysOf_dictInsert_of_not_mem m hku]
        intro hmem
        rcases List.mem_append.mp hmem with hm | hm
        · exact hxu hm
        · exact hxk (List.mem_singleton.mp hm)

theorem inv_release {M : Type} (p : ModelPool M) (k : Nat) (m : M)
    (resetFn : M → Option M) (hInv : p.Inv) :
    (p.release k m resetFn).2.Inv := by
  obtain ⟨h1, h2, h3⟩ := hInv
  unfold ModelPool.release
  by_cases h : k ∈ keysOf p.in_use
  · rw [if_pos h]
    have hkf : k ∉ keysOf p.free := fun hx => h3 k hx h
    have hdelnd := nodup_keysOf_dictDelete k h2
    have hdelmem : ∀ x, x ∈ keysOf (dictDelete p.in_use k) →
        x ∈ keysOf p.in_use ∧ x ≠ k :=
      fun x hx => (mem_keysOf_dictDelete _ _ _).mp hx
    cases hr : resetFn m with
    | none =>
        exact ⟨h1, hdelnd, fun x hx hx' => h3 x hx (hdelmem x hx').1⟩
    | some m' =>
        refine ⟨?_, hdelnd, ?_⟩
        · rw [keysOf_dictInsert_of_not_mem m' hkf]
          simp only [List.nodup_append, List.nodup_cons, List.not_mem_nil,
            not_false_eq_true, List.nodup_nil, and_true, true_and]
          refine ⟨h1, ?_⟩
          intro x hx
          simp only [List.mem_singleton]
          intro hxk
          exact hkf (hxk ▸ hx)
        · intro x hx
          rw [keysOf_dictInsert_of_not_mem m' hkf] at hx
          intro hmem
          obtain ⟨hxu, hxk⟩ := hdelmem x hmem
          rcases List.mem_append.mp hx with hm | hm
          · exact h3 x hm hxu
          · exact hxk (List.mem_singleton.mp hm)
  · rw [if_neg h]
    exact ⟨h1, h2, h3⟩

theorem inv_step {M : Type} (resetFn : M → M) (p : ModelPool M) (op : PoolOp M)
    (hInv : p.Inv) : (ModelPool.step resetFn p op).Inv := by
  cases op with
  | add k m => exact inv_add p k m hInv
  | get => exact inv_get p hInv
  | release k m => exact inv_release p k m _ hInv

theorem inv_empty {M : Type} : (ModelPool.empty (M := M)).Inv :=
  ⟨List.nodup_nil, List.nodup_nil, fun k hk => by cases hk⟩

theorem inv_foldl {M : Type} (resetFn : M → M) (ops : List (PoolOp M))
    (p : ModelPool M) (hInv : p.Inv) :
    (ops.foldl (ModelPool.step resetFn) p).Inv := by
  induction ops generalizing p with
  | nil => exact hInv
  | cons op ops ih => exact ih _ (inv_step resetFn p op hInv)

theorem inv_run {M : Type} (resetFn : M → M) (ops : List (PoolOp M)) :
    (ModelPool.run resetFn ops).Inv :=
  inv_foldl resetFn ops ModelPool.empty inv_empty

/-! ## Step lemmas: counts, membership, status -/

theorem counts_step {M : Type} (resetFn : M → M) (p : ModelPool M)
    (op : PoolOp M) (hInv : p.Inv) :
    (ModelPool.step resetFn p op).free_count +
        (ModelPool.step resetFn p op).in_use_count =
      p.free_count + p.in_use_count +
        (ModelPool.addContribution p op).length := by
  obtain ⟨h1, h2, h3⟩ := hInv
  cases op with
  | add k m =>
      by_cases h : k ∈ keysOf p.free ∨ k ∈ keysOf p.in_use
      · simp [ModelPool.step, ModelPool.add, ModelPool.addContribution, h]
      · obtain ⟨hf, hu⟩ := not_or.mp h
        simp only [ModelPool.step, ModelPool.add, ModelPool.addContribution,
          if_neg h]
        simp only [ModelPool.free_count, ModelPool.in_use_count,
          length_dictInsert_of_not_mem m hf, List.length_cons,
          List.length_nil]
        omega
  | get =>
      simp only [ModelPool.step, ModelPool.get, ModelPool.addContribution]
      cases hl : p.free.getLast? with
      | none => simp
      | some e =>
          obtain ⟨k, m⟩ := e
          have hdec := free_decomp_of_getLast hl
          have hkfree : k ∈ keysOf p.free := by
            rw [keysOf_free_decomp hl]
            exact List.mem_append.mpr (Or.inr (List.mem_singleton.mpr rfl))
          have hku : k ∉ keysOf p.in_use := h3 k hkfree
          have hflen : p.free.dropLast.length + 1 = p.free.length := by
            conv_rhs => rw [← hdec]
            rw [List.length_append]
            rfl
          simp only [ModelPool.free_count, ModelPool.in_use_count,
            length_dictInsert_of_not_mem m hku, List.length_nil]
          omega
  | release k m =>
      simp only [ModelPool.step, ModelPool.release, ModelPool.addContribution]
      by_cases h : k ∈ keysOf p.in_use
      · have hkf : k ∉ keysOf p.free := fun hx => h3 k hx h
        have hulen := length_dictDelete_of_mem h2 h
        simp only [if_pos h]
        simp only [ModelPool.free_count, ModelPool.in_use_count,
          length_dictInsert_of_not_mem (resetFn m) hkf, List.length_nil]
        omega
      · simp [if_neg h]

theorem counts_foldl {M : Type} (resetFn : M → M) (ops : List (PoolOp M))
    (p : ModelPool M) (hInv : p.Inv) :
    (ops.foldl (ModelPool.step resetFn) p).free_count +
        (ops.foldl (ModelPool.step resetFn) p).in_use_count =
      p.free_count + p.in_use_count +
        (ModelPool.addedKeys resetFn p ops).length := by
  induction ops generalizing p with
  | nil => simp [ModelPool.addedKeys]
  | cons op ops ih =>
      rw [List.foldl_cons, ih _ (inv_step resetFn p op hInv)]
      rw [counts_step resetFn p op hInv]
      simp only [ModelPool.addedKeys, List.length_append]
      omega

theorem mem_in_use_step {M : Type} (resetFn : M → M) (p : ModelPool M)
    (op : PoolOp M) (k : Nat) (hk : k ∈ keysOf p.in_use)
    (hop : ∀ m : M, op ≠ .release k m) :
    k ∈ keysOf (ModelPool.step resetFn p op).in_use := by
  cases op with
  | add k' m =>
      by_cases h : k' ∈ keysOf p.free ∨ k' ∈ keysOf p.in_use <;>
        simp [ModelPool.step, ModelPool.add, h, hk]
  | get =>
      simp only [ModelPool.step, ModelPool.get]
      cases hl : p.free.getLast? with
      | none => exact hk
      | some e =>
          obtain ⟨k0, m0⟩ := e
          exact (mem_keysOf_dictInsert _ _ _ _).mpr (Or.inl hk)
  | release k' m =>
      have hk' : k' ≠ k := fun he => hop m (by rw [he])
      simp only [ModelPool.step, ModelPool.release]
      by_cases h : k' ∈ keysOf p.in_use
      · simp only [if_pos h]
        exact (mem_keysOf_dictDelete _ _ _).mpr ⟨hk, fun he => hk' he.symm⟩
      · simp only [if_neg h]
        exact hk

theorem mem_in_use_foldl {M : Type} (resetFn : M → M) (ops : List (PoolOp M))
    (p : ModelPool M) (k : Nat) (hk : k ∈ keysOf p.in_use)
    (hno : ∀ m : M, PoolOp.release k m ∉ ops) :
    k ∈ keysOf (ops.foldl (ModelPool.step resetFn) p).in_use := by
  induction ops generalizing p with
  | nil => exact hk
  | cons op ops ih =>
      have hop : ∀ m : M, op ≠ .release k m :=
        fun m he => hno m (he ▸ List.mem_cons_self op ops)
      refine ih _ (mem_in_use_step resetFn p op k hk hop) ?_
      intro m hm
      exact hno m (List.mem_cons_of_mem _ hm)

theorem tracked_step {M : Type} (resetFn : M → M) (p : ModelPool M)
    (op : PoolOp M) (k : Nat) :
    (k ∈ keysOf (ModelPool.step resetFn p op).free ∨
        k ∈ keysOf (ModelPool.step resetFn p op).in_use) ↔
      ((k ∈ keysOf p.free ∨ k ∈ keysOf p.in_use) ∨
        k ∈ ModelPool.addContribution p op) := by
  cases op with
  | add k' m =>
      by_cases h : k' ∈ keysOf p.free ∨ k' ∈ keysOf p.in_use
      · simp [ModelPool.step, ModelPool.add, ModelPool.addContribution, h]
      · obtain ⟨hf, hu⟩ := not_or.mp h
        simp only [ModelPool.step, ModelPool.add, ModelPool.addContribution,
          if_neg h, keysOf_dictInsert_of_not_mem m hf, List.mem_append,
          List.mem_singleton]
        tauto
  | get =>
      simp only [ModelPool.step, ModelPool.get, ModelPool.addContribution]
      cases hl : p.free.getLast? with
      | none => simp
      | some e =>
          obtain ⟨k0, m0⟩ := e
          have hkeys := keysOf_free_decomp hl
          rw [hkeys]
          simp only [mem_keysOf_dictInsert, List.mem_append,
            List.mem_singleton, List.not_mem_nil, or_false]
          tauto
  | release k' m =>
      simp only [ModelPool.step, ModelPool.release, ModelPool.addContribution]
      by_cases h : k' ∈ keysOf p.in_use
      · simp only [if_pos h, mem_keysOf_dictInsert, mem_keysOf_dictDelete,
          List.not_mem_nil, or_false]
        constructor
        · rintro ((hx | rfl) | ⟨hx, _⟩)
          · exact Or.inl hx
          · exact Or.inr h
          · exact Or.inr hx
        · rintro (hx | hx)
          · exact Or.inl (Or.inl hx)
          · by_cases hk : k = k'
            · exact Or.inl (Or.inr hk)
            · exact Or.inr ⟨hx, hk⟩
      · simp [if_neg h]

theorem tracked_foldl {M : Type} (resetFn : M → M) (ops : List (PoolOp M))
    (p : ModelPool M) (k : Nat) :
    (k ∈ keysOf (ops.foldl (ModelPool.step resetFn) p).free ∨
        k ∈ keysOf (ops.foldl (ModelPool.step resetFn) p).in_use) ↔
      ((k ∈ keysOf p.free ∨ k ∈ keysOf p.in_use) ∨
        k ∈ ModelPool.addedKeys resetFn p ops) := by
  induction ops generalizing p with
  | nil => simp [ModelPool.addedKeys]
  | cons op ops ih =>
      rw [List.foldl_cons, ih (ModelPool.step resetFn p op)]
      rw [tracked_step resetFn p op k]
      simp only [ModelPool.addedKeys, List.mem_append]
      tauto

theorem statusOf_eq_inUse {M : Type} {p : ModelPool M} {k : Nat}
    (h : k ∈ keysOf p.in_use) : p.statusOf k = .inUse := by
  unfold ModelPool.statusOf
  rw [if_pos h]

theorem statusOf_eq_free {M : Type} {p : ModelPool M} {k : Nat}
    (hu : k ∉ keysOf p.in_use) (hf : k ∈ keysOf p.free) :
    p.statusOf k = .free := by
  unfold ModelPool.statusOf
  rw [if_neg hu, if_pos hf]

theorem statusOf_eq_untracked {M : Type} {p : ModelPool M} {k : Nat}
    (hu : k ∉ keysOf p.in_use) (hf : k ∉ keysOf p.free) :
    p.statusOf k = .untracked := by
  unfold ModelPool.statusOf
  rw [if_neg hu, if_neg hf]

theorem statusOf_congr {M : Type} {p q : ModelPool M} {k : Nat}
    (hf : k ∈ keysOf p.free ↔ k ∈ keysOf q.free)
    (hu : k ∈ keysOf p.in_use ↔ k ∈ keysOf q.in_use) :
    q.statusOf k = p.statusOf k := by
  unfold ModelPool.statusOf
  by_cases h1 : k ∈ keysOf p.in_use
  · rw [if_pos h1, if_pos (hu.mp h1)]
  · rw [if_neg h1, if_neg (fun hq => h1 (hu.mpr hq))]
    by_cases h2 : k ∈ keysOf p.free
    · rw [if_pos h2, if_pos (hf.mp h2)]
    · rw [if_neg h2, if_neg (fun hq => h2 (hf.mpr hq))]

theorem statusOf_step {M : Type} (resetFn : M → M) (p : ModelPool M)
    (op : PoolOp M) (k : Nat) (hInv : p.Inv) :
    allowedTransition op k (p.statusOf k)
      ((ModelPool.step resetFn p op).statusOf k) := by
  obtain ⟨h1, h2, h3⟩ := hInv
  cases op with
  | add k' m =>
      by_cases h : k' ∈ keysOf p.free ∨ k' ∈ keysOf p.in_use
      · left
        apply statusOf_congr <;> simp [ModelPool.step, ModelPool.add, h]
      · obtain ⟨hf, hu⟩ := not_or.mp h
        by_cases hk : k = k'
        · subst hk
          right
          left
          refine ⟨⟨m, rfl⟩, statusOf_eq_untracked hu hf, ?_⟩
          apply statusOf_eq_free
          · simpa [ModelPool.step, ModelPool.add, if_neg h] using hu
          · simp only [ModelPool.step, ModelPool.add, if_neg h]
            rw [keysOf_dictInsert_of_not_mem m hf]
            exact List.mem_append.mpr (Or.inr (List.mem_singleton.mpr rfl))
        · left
          apply statusOf_congr
          · simp only [ModelPool.step, ModelPool.add, if_neg h,
              keysOf_dictInsert_of_not_mem m hf, List.mem_append,
              List.mem_singleton]
            constructor
            · exact fun hx => Or.inl hx
            · rintro (hx | hx)
              · exact hx
              · exact absurd hx hk
          · simp [ModelPool.step, ModelPool.add, if_neg h]
  | get =>
      cases hl : p.free.getLast? with
      | none =>
          left
          apply statusOf_congr <;> simp [ModelPool.step, ModelPool.get, hl]
      | some e =>
          obtain ⟨k0, m0⟩ := e
          have hkeys := keysOf_free_decomp hl
          have hk0free : k0 ∈ keysOf p.free := by
            rw [hkeys]
            exact List.mem_append.mpr (Or.inr (List.mem_singleton.mpr rfl))
          have hk0u : k0 ∉ keysOf p.in_use := h3 k0 hk0free
          have hnd := h1
          rw [hkeys, List.nodup_append] at hnd
          obtain ⟨hA, _, hdisj⟩ := hnd
          by_cases hk : k = k0
          · subst hk
            right
            right
            left
            refine ⟨rfl, statusOf_eq_free hk0u hk0free, ?_⟩
            apply statusOf_eq_inUse
            simp only [ModelPool.step, ModelPool.get, hl]
            exact (mem_keysOf_dictInsert _ _ _ _).mpr (Or.inr rfl)
          · left
            apply statusOf_congr
            · simp only [ModelPool.step, ModelPool.get, hl]
              rw [hkeys]
              simp only [List.mem_append, List.mem_singleton]
              constructor
              · rintro (hx | hx)
                · exact hx
                · exact absurd hx hk
              · exact fun hx => Or.inl hx
            · simp only [ModelPool.step, ModelPool.get, hl,
                mem_keysOf_dictInsert]
              constructor
              · exact fun hx => Or.inl hx
              · rintro (hx | hx)
                · exact hx
                · exact absurd hx hk
  | release k' m =>
      by_cases h : k' ∈ keysOf p.in_use
      · have hkf : k' ∉ keysOf p.free := fun hx => h3 k' hx h
        by_cases hk : k = k'
        · subst hk
          right
          right
          right
          refine ⟨⟨m, rfl⟩, statusOf_eq_inUse h, ?_⟩
          apply statusOf_eq_free
          · simp only [ModelPool.step, ModelPool.release, if_pos h,
              mem_keysOf_dictDelete]
            rintro ⟨-, hne⟩
            exact hne rfl
          · simp only [ModelPool.step, ModelPool.release, if_pos h]
            rw [keysOf_dictInsert_of_not_mem (resetFn m) hkf]
            exact List.mem_append.mpr (Or.inr (List.mem_singleton.mpr rfl))
        · left
          apply statusOf_congr
          · simp only [ModelPool.step, ModelPool.release, if_pos h,
              keysOf_dictInsert_of_not_mem (resetFn m) hkf,
              List.mem_append, List.mem_singleton]
            constructor
            · exact fun hx => Or.inl hx
            · rintro (hx | hx)
              · exact hx
              · exact absurd hx hk
          · simp only [ModelPool.step, ModelPool.release, if_pos h,
              mem_keysOf_dictDelete]
            constructor
            · exact fun hx => ⟨hx, hk⟩
            · exact fun hx => hx.1
      · left
        apply statusOf_congr <;>
          simp [ModelPool.step, ModelPool.release, if_neg h]

/-! ## Claim theorems -/

/-- Claim C1, counterexample: at the reachable pool state where resource `1`
is checked out, a `release` whose `reset()` raises reports the failure with
the resource in *neither* set — it was already deleted from `in_use` before
`reset()` ran and is never inserted into `free` — contradicting the claim
that the resource remains in `in_use` on reset failure. -/
theorem C1_counterexample :
    ((ModelPool.run (M := Unit) id [.add 1 (), .get]).release 1 ()
        (fun _ => none)).1 = .error .resetFailed ∧
    1 ∉ keysOf ((ModelPool.run (M := Unit) id [.add 1 (), .get]).release 1 ()
        (fun _ => none)).2.in_use ∧
    1 ∉ keysOf ((ModelPool.run (M := Unit) id [.add 1 (), .get]).release 1 ()
        (fun _ => none)).2.free :=
  ⟨rfl, by decide, by decide⟩

/-- Claim C1, amended: `release` deletes the resource from `in_use` first,
then invokes `reset()`, and inserts it into `free` (carrying the reset
state) only after `reset()` returns; if `reset()` raises, the error
propagates with the resource already removed from `in_use` and never
inserted into `free` (it is dropped from the pool), so an uncleaned resource
is still never returned to `free`. -/
theorem C1_release_reset_order {M : Type} :
    (∀ (p : ModelPool M) (k : Nat) (m : M) (resetFn : M → M),
        k ∈ keysOf p.in_use →
          p.release k m (fun x => some (resetFn x)) =
            (.ok (), ⟨dictInsert p.free k (resetFn m),
              dictDelete p.in_use k⟩)) ∧
    (∀ (p : ModelPool M) (k : Nat) (m : M),
        k ∈ keysOf p.in_use →
          (p.release k m (fun _ => none)).1 = .error .resetFailed ∧
          (p.release k m (fun _ => none)).2.free = p.free ∧
          (p.release k m (fun _ => none)).2.in_use = dictDelete p.in_use k ∧
          k ∉ keysOf (p.release k m (fun _ => none)).2.in_use) := by
  constructor
  · intro p k m resetFn h
    simp [ModelPool.release, if_pos h]
  · intro p k m h
    refine ⟨by simp [ModelPool.release, if_pos h], ?_, ?_, ?_⟩
    · simp [ModelPool.release, if_pos h]
    · simp [ModelPool.release, if_pos h]
    · simp only [ModelPool.release, if_pos h]
      intro hmem
      exact ((mem_keysOf_dictDelete _ _ _).mp hmem).2 rfl

/-- Witness for C1_release_reset_order at a concrete pool with key 1
checked out. -/
theorem C1_release_reset_order_witness :
    (1 ∈ keysOf (ModelPool.mk (M := Unit) [] [(1, ())]).in_use) ∧
    ((ModelPool.mk (M := Unit) [] [(1, ())]).release 1 ()
        (fun _ => none)).2.free = (ModelPool.mk (M := Unit) [] [(1, ())]).free ∧
    1 ∉ keysOf ((ModelPool.mk (M := Unit) [] [(1, ())]).release 1 ()
        (fun _ => none)).2.in_use :=
  ⟨by decide,
    ((C1_release_reset_order (M := Unit)).2 ⟨[], [(1, ())]⟩ 1 ()
      (by decide)).2.1,
    ((C1_release_reset_order (M := Unit)).2 ⟨[], [(1, ())]⟩ 1 ()
      (by decide)).2.2.2⟩

/-- Claim C2: for every sequence of add/get/release calls starting from an
empty pool, `free_count() + in_use_count()` equals the number of successful
`add` calls in the sequence (gets and releases never change the total). -/
theorem C2_counts_sum {M : Type} (resetFn : M → M) (ops : List (PoolOp M)) :
    (ModelPool.run resetFn ops).free_count +
        (ModelPool.run resetFn ops).in_use_count =
      (ModelPool.addedKeys resetFn ModelPool.empty ops).length := by
  have h := counts_foldl resetFn ops ModelPool.empty inv_empty
  simpa [ModelPool.run, ModelPool.free_count, ModelPool.in_use_count,
    ModelPool.empty] using h

/-- Claim C3: a resource returned by a successful `get()` is never returned
by any later `get()` until it is passed to a `release()`: if `get` after
trace `ops1` returns key `k`, and `ops2` contains no release of `k`, then a
successful `get` after `ops2` more calls returns a different key. -/
theorem C3_get_exclusive {M : Type} (resetFn : M → M)
    (ops1 ops2 : List (PoolOp M)) (k k' : Nat) (m m' : M)
    (p1 p2 : ModelPool M)
    (h1 : (ModelPool.run resetFn ops1).get = (.ok (k, m), p1))
    (hno : ∀ mm : M, PoolOp.release k mm ∉ ops2)
    (h2 : (ops2.foldl (ModelPool.step resetFn) p1).get = (.ok (k', m'), p2)) :
    k' ≠ k := by
  obtain ⟨hl1, hp1⟩ := get_ok_elim h1
  have hkin : k ∈ keysOf p1.in_use := by
    rw [hp1]
    exact (mem_keysOf_dictInsert _ _ _ _).mpr (Or.inr rfl)
  have hInv1 : p1.Inv := by
    have hp : p1 = (ModelPool.run resetFn ops1).get.2 := by rw [h1]
    rw [hp]
    exact inv_get _ (inv_run resetFn ops1)
  have hstay : k ∈ keysOf (ops2.foldl (ModelPool.step resetFn) p1).in_use :=
    mem_in_use_foldl resetFn ops2 p1 k hkin hno
  have hInvq : (ops2.foldl (ModelPool.step resetFn) p1).Inv :=
    inv_foldl resetFn ops2 p1 hInv1
  obtain ⟨hl2, -⟩ := get_ok_elim h2
  have hk'free : k' ∈ keysOf (ops2.foldl (ModelPool.step resetFn) p1).free := by
    rw [keysOf_free_decomp hl2]
    exact List.mem_append.mpr (Or.inr (List.mem_singleton.mpr rfl))
  intro he
  exact hInvq.2.2 k' hk'free (he ▸ hstay)

/-- Witness for C3_get_exclusive: after adding models 1 and 2, the first
`get` returns key 2 and the next `get` returns key 1 ≠ 2. -/
theorem C3_get_exclusive_witness : (1 : Nat) ≠ 2 :=
  C3_get_exclusive (M := Unit) id [.add 1 (), .add 2 ()] [] 2 1 () ()
    ⟨[(1, ())], [(2, ())]⟩ ⟨[], [(2, ()), (1, ())]⟩
    rfl (fun _ => List.not_mem_nil _) rfl

/-- Claim C4: in every reachable pool state the `free` and `in_use` key sets
are disjoint; a key is tracked (in one of the two sets) exactly when it was
successfully added during the trace; and every call changes a key's status
only along the allowed transitions add: untracked→free, get: free→in_use,
release: in_use→free. -/
theorem C4_partition_transitions {M : Type} (resetFn : M → M)
    (ops : List (PoolOp M)) :
    (∀ k, ¬(k ∈ keysOf (ModelPool.run resetFn ops).free ∧
        k ∈ keysOf (ModelPool.run resetFn ops).in_use)) ∧
    (∀ k, (k ∈ keysOf (ModelPool.run resetFn ops).free ∨
        k ∈ keysOf (ModelPool.run resetFn ops).in_use) ↔
          k ∈ ModelPool.addedKeys resetFn ModelPool.empty ops) ∧
    (∀ (op : PoolOp M) (k : Nat),
        allowedTransition op k ((ModelPool.run resetFn ops).statusOf k)
          ((ModelPool.step resetFn (ModelPool.run resetFn ops) op).statusOf
            k)) := by
  refine ⟨?_, ?_, ?_⟩
  · rintro k ⟨hf, hu⟩
    exact (inv_run resetFn ops).2.2 k hf hu
  · intro k
    have h := tracked_foldl resetFn ops ModelPool.empty k
    simpa [ModelPool.run, ModelPool.empty, keysOf] using h
  · intro op k
    exact statusOf_step resetFn _ op k (inv_run resetFn ops)

/-- Claim C5: the documented scenario — start empty (both counts 0), add 3
distinct resources (free_count 3), get three times (in_use_count 3,
free_count 0), a fourth get fails immediately with the pool-exhausted error
leaving the pool unchanged (no blocking, no growth), and releasing all three
restores free_count 3, in_use_count 0. -/
theorem C5_scenario :
    (ModelPool.empty (M := Unit)).free_count = 0 ∧
    (ModelPool.empty (M := Unit)).in_use_count = 0 ∧
    (ModelPool.run (M := Unit) id
        [.add 1 (), .add 2 (), .add 3 ()]).free_count = 3 ∧
    (ModelPool.run (M := Unit) id
        [.add 1 (), .add 2 (), .add 3 ()]).in_use_count = 0 ∧
    (ModelPool.run (M := Unit) id
        [.add 1 (), .add 2 (), .add 3 (), .get, .get, .get]).in_use_count
      = 3 ∧
    (ModelPool.run (M := Unit) id
        [.add 1 (), .add 2 (), .add 3 (), .get, .get, .get]).free_count
      = 0 ∧
    ((ModelPool.run (M := Unit) id
        [.add 1 (), .add 2 (), .add 3 (), .get, .get, .get]).get).1
      = .error .poolExhausted ∧
    ((ModelPool.run (M := Unit) id
        [.add 1 (), .add 2 (), .add 3 (), .get, .get, .get]).get).2
      = ModelPool.run (M := Unit) id
          [.add 1 (), .add 2 (), .add 3 (), .get, .get, .get] ∧
    (ModelPool.run (M := Unit) id
        [.add 1 (), .add 2 (), .add 3 (), .get, .get, .get,
          .release 3 (), .release 2 (), .release 1 ()]).free_count = 3 ∧
    (ModelPool.run (M := Unit) id
        [.add 1 (), .add 2 (), .add 3 (), .get, .get, .get,
          .release 3 (), .release 2 (), .release 1 ()]).in_use_count = 0 :=
  ⟨by decide, by decide, by decide, by decide, by decide, by decide, rfl,
    by decide, by decide, by decide⟩

/-- Claim C6: `add` fails with DuplicateResource exactly when the key
(object identity) is already tracked in `free` or `in_use`; a failed add
leaves the pool unchanged; a fresh key is appended to `free` and nothing
else changes; and two distinct identities carrying the same model value can
both be added (identity, not value equality). -/
theorem C6_add_spec {M : Type} :
    (∀ (p : ModelPool M) (k : Nat) (m : M),
        (p.add k m).1 = .error .duplicateResource ↔
          k ∈ keysOf p.free ∨ k ∈ keysOf p.in_use) ∧
    (∀ (p : ModelPool M) (k : Nat) (m : M),
        k ∈ keysOf p.free ∨ k ∈ keysOf p.in_use → (p.add k m).2 = p) ∧
    (∀ (p : ModelPool M) (k : Nat) (m : M),
        k ∉ keysOf p.free → k ∉ keysOf p.in_use →
          p.add k m = (.ok (), ⟨p.free ++ [(k, m)], p.in_use⟩)) ∧
    (∀ (p : ModelPool M) (k1 k2 : Nat) (m : M), k1 ≠ k2 →
        k1 ∉ keysOf p.free → k1 ∉ keysOf p.in_use →
        k2 ∉ keysOf p.free → k2 ∉ keysOf p.in_use →
          (p.add k1 m).1 = .ok () ∧ ((p.add k1 m).2.add k2 m).1 = .ok ()) := by
  refine ⟨?_, ?_, ?_, ?_⟩
  · intro p k m
    by_cases h : k ∈ keysOf p.free ∨ k ∈ keysOf p.in_use <;>
      simp [ModelPool.add, h]
  · intro p k m h
    simp [ModelPool.add, h]
  · intro p k m hf hu
    have h : ¬(k ∈ keysOf p.free ∨ k ∈ keysOf p.in_use) :=
      not_or.mpr ⟨hf, hu⟩
    simp [ModelPool.add, h, dictInsert_of_not_mem m hf]
  · intro p k1 k2 m hne hf1 hu1 hf2 hu2
    have h1 : ¬(k1 ∈ keysOf p.free ∨ k1 ∈ keysOf p.in_use) :=
      not_or.mpr ⟨hf1, hu1⟩
    have hf2' : k2 ∉ keysOf (dictInsert p.free k1 m) := by
      rw [keysOf_dictInsert_of_not_mem m hf1]
      intro hmem
      rcases List.mem_append.mp hmem with h | h
      · exact hf2 h
      · exact hne (List.mem_singleton.mp h).symm
    have h2 : ¬(k2 ∈ keysOf (dictInsert p.free k1 m) ∨
        k2 ∈ keysOf p.in_use) := not_or.mpr ⟨hf2', hu2⟩
    constructor
    · simp [ModelPool.add, h1]
    · simp [ModelPool.add, h1, h2]

/-- Witness for C6_add_spec: on an empty pool, two distinct keys carrying
the same (unit) value are both added successfully. -/
theorem C6_add_spec_witness :
    ((ModelPool.empty (M := Unit)).add 1 ()).1 = .ok () ∧
    (((ModelPool.empty (M := Unit)).add 1 ()).2.add 2 ()).1 = .ok () :=
  (C6_add_spec (M := Unit)).2.2.2 ModelPool.empty 1 2 () (by decide)
    (by decide) (by decide) (by decide) (by decide)

/-- Claim C7: `release` fails with NotInUse exactly when the key is not in
`in_use` — whether never added, currently free, or released twice — for any
behaviour of `reset`; and such a failed release leaves the pool completely
unchanged (the assert fires before any mutation). -/
theorem C7_release_spec {M : Type} :
    (∀ (p : ModelPool M) (k : Nat) (m : M) (resetFn : M → Option M),
        (p.release k m resetFn).1 = .error .notInUse ↔
          k ∉ keysOf p.in_use) ∧
    (∀ (p : ModelPool M) (k : Nat) (m : M) (resetFn : M → Option M),
        k ∉ keysOf p.in_use → p.release k m resetFn = (.error .notInUse, p)) := by
  constructor
  · intro p k m resetFn
    by_cases h : k ∈ keysOf p.in_use
    · simp only [ModelPool.release, if_pos h]
      cases hr : resetFn m <;> simp [h]
    · simp [ModelPool.release, if_neg h, h]
  · intro p k m resetFn h
    simp [ModelPool.release, if_neg h]

/-- Witness for C7_release_spec: releasing key 1 on an empty pool (never
added) fails with NotInUse and changes nothing. -/
theorem C7_release_spec_witness :
    (1 ∉ keysOf (ModelPool.empty (M := Unit)).in_use) ∧
    (ModelPool.empty (M := Unit)).release 1 () (fun x => some x) =
      (.error .notInUse, ModelPool.empty) :=
  ⟨by decide,
    (C7_release_spec (M := Unit)).2 ModelPool.empty 1 () (fun x => some x)
      (by decide)⟩

/-- Claim C8: `SampleModel.reset` returns the model to its
post-construction state (the model's only state, `_shift`, is fixed at
construction and never mutated, so reset is the identity), reset is
idempotent, predictions after reset equal post-construction predictions,
and the model a successful `release` stores back into `free` is exactly the
released model's (unchanged, clean) state. -/
theorem C8_reset_spec :
    (∀ m : SampleModel, m.reset = m) ∧
    (∀ m : SampleModel, m.reset.reset = m.reset) ∧
    (∀ (m : SampleModel) (x : List Int),
        m.reset.predict x = m.predict x) ∧
    (∀ (p : ModelPool SampleModel) (k : Nat) (m : SampleModel),
        k ∈ keysOf p.in_use →
          (p.release k m (fun s => some s.reset)).2.free =
            dictInsert p.free k m) := by
  refine ⟨fun m => rfl, fun m => rfl, fun m x => rfl, ?_⟩
  intro p k m h
  simp [ModelPool.release, if_pos h, SampleModel.reset]

/-- Witness for C8_reset_spec at a concrete checked-out model. -/
theorem C8_reset_spec_witness :
    (1 ∈ keysOf (ModelPool.mk (M := SampleModel) [] [(1, ⟨[5]⟩)]).in_use) ∧
    ((ModelPool.mk (M := SampleModel) [] [(1, ⟨[5]⟩)]).release 1 ⟨[5]⟩
        (fun s => some s.reset)).2.free = dictInsert [] 1 ⟨[5]⟩ :=
  ⟨by decide,
    C8_reset_spec.2.2.2 ⟨[], [(1, ⟨[5]⟩)]⟩ 1 ⟨[5]⟩ (by decide)⟩

/-- Claim C9: `SampleModel.predict` is a pure, length-preserving function:
it returns one output per input, a method call leaves the model state
unchanged, equal states and equal inputs give equal outputs, and the i-th
output depends only on the i-th input and the construction-time shift
vector: `predict(x)[i] = x[i] + shift[i % len(shift)]`. -/
theorem C9_predict_spec :
    (∀ (m : SampleModel) (x : List Int),
        (m.predict x).length = x.length) ∧
    (∀ (m : SampleModel) (x : List Int), (m.predictCall x).2 = m) ∧
    (∀ (m m' : SampleModel) (x x' : List Int), m.shift = m'.shift → x = x' →
        m.predict x = m'.predict x') ∧
    (∀ (m : SampleModel) (x : List Int) (i : Nat), i < x.length →
        (m.predict x).getD i 0 =
          x.getD i 0 + m.shift.getD (i % m.shift.length) 0) := by
  have hlen : ∀ (m : SampleModel) (x : List Int),
      (m.predict x).length = x.length := by
    intro m x
    simp [SampleModel.predict]
  refine ⟨hlen, fun m x => rfl, ?_, ?_⟩
  · intro m m' x x' hs hx
    subst hx
    unfold SampleModel.predict
    rw [hs]
  · intro m x i h
    have h' : i < (m.predict x).length := by rw [hlen]; exact h
    rw [List.getD_eq_getElem _ 0 h', List.getD_eq_getElem _ 0 h]
    simp [SampleModel.predict]

/-- Witness for C9_predict_spec: for shift `[5]` and input `[10, 20]`,
output 1 is `20 + 5`. -/
theorem C9_predict_spec_witness :
    ((1 : Nat) < ([10, 20] : List Int).length) ∧
    ((SampleModel.mk [5]).predict [10, 20]).getD 1 0 =
      ([10, 20] : List Int).getD 1 0 +
        ([5] : List Int).getD (1 % ([5] : List Int).length) 0 :=
  ⟨by decide, C9_predict_spec.2.2.2 ⟨[5]⟩ [10, 20] 1 (by decide)⟩

/-- Claim C10: `get()` is deterministic LIFO.  In every reachable pool
state: a successful `add` appends its resource at the end of the
insertion-ordered `free` dict, a successful `release` appends the released
(reset) resource at the end of `free`, and `get()` removes and returns
exactly the last entry of `free` — hence `get` always hands out the
resource most recently inserted into `free`, and two pools built by the
same call sequence (the deterministic `run`) hand out the same order. -/
theorem C10_get_lifo {M : Type} (resetFn : M → M) (ops : List (PoolOp M)) :
    (∀ (k : Nat) (m : M),
        k ∉ keysOf (ModelPool.run resetFn ops).free →
        k ∉ keysOf (ModelPool.run resetFn ops).in_use →
          ((ModelPool.run resetFn ops).add k m).2.free.getLast? =
            some (k, m)) ∧
    (∀ (k : Nat) (m : M),
        k ∈ keysOf (ModelPool.run resetFn ops).in_use →
          ((ModelPool.run resetFn ops).release k m
              (fun x => some (resetFn x))).2.free.getLast? =
            some (k, resetFn m)) ∧
    (∀ e : Nat × M,
        (ModelPool.run resetFn ops).free.getLast? = some e →
          (ModelPool.run resetFn ops).get =
            (.ok e, ⟨(ModelPool.run resetFn ops).free.dropLast,
              dictInsert (ModelPool.run resetFn ops).in_use e.1 e.2⟩)) := by
  refine ⟨?_, ?_, ?_⟩
  · intro k m hf hu
    have h : ¬(k ∈ keysOf (ModelPool.run resetFn ops).free ∨
        k ∈ keysOf (ModelPool.run resetFn ops).in_use) := not_or.mpr ⟨hf, hu⟩
    simp only [ModelPool.add, if_neg h]
    rw [dictInsert_of_not_mem m hf]
    exact List.getLast?_concat _
  · intro k m h
    have hkf : k ∉ keysOf (ModelPool.run resetFn ops).free :=
      fun hx => (inv_run resetFn ops).2.2 k hx h
    simp only [ModelPool.release, if_pos h]
    rw [dictInsert_of_not_mem (resetFn m) hkf]
    exact List.getLast?_concat _
  · intro e hl
    obtain ⟨k, m⟩ := e
    simp [ModelPool.get, hl]

/-- Witness for C10_get_lifo: on the reachable pool `run id [add 1]`, a
fresh add of key 2 lands at the end of `free`. -/
theorem C10_get_lifo_witness :
    ((2 : Nat) ∉ keysOf (ModelPool.run (M := Unit) id [.add 1 ()]).free) ∧
    ((ModelPool.run (M := Unit) id [.add 1 ()]).add 2 ()).2.free.getLast? =
      some (2, ()) :=
  ⟨by decide,
    (C10_get_lifo (M := Unit) id [.add 1 ()]).1 2 () (by decide) (by decide)⟩
